import Mathlib

/-!
Verification development for cache-logs.py, a pipeline that mirrors S3 access
logs into a sqlite database.  The program is embedded shallowly: Python strings
are lists of characters, the sqlite database is a pair of row lists whose
committed state changes only at conn.commit(), the staging directory is an
association list from base names to file data, and the boto3/csv capabilities
are passed in as explicit data (a download oracle, pre-tokenized file lines,
listing pages).
-/

/-- Python strings, modelled as lists of characters. -/
abbrev Str := List Char

/-- Python character comparison, by code point. -/
def charLt (a b : Char) : Bool := decide (a.toNat < b.toNat)

/-- Python lexicographic string comparison a <= b. -/
def strLe : Str → Str → Bool
  | [], _ => true
  | _ :: _, [] => false
  | x :: xs, y :: ys => if charLt x y then true else if charLt y x then false else strLe xs ys

/-- posixpath.basename: the suffix after the last slash. -/
def pyBasename (p : Str) : Str := (p.reverse.takeWhile (fun c => decide (¬ c = '/'))).reverse

/-- The head part of posixpath.split: everything up to and including the last
slash (empty when there is no slash). -/
def pySplitHead (p : Str) : Str := (p.reverse.dropWhile (fun c => decide (¬ c = '/'))).reverse

/-- posixpath.dirname: the head part of split, with trailing slashes stripped
unless the head is empty or consists only of slashes. -/
def pyDirname (p : Str) : Str :=
  let head := pySplitHead p
  if head = [] then head
  else if head.all (fun c => decide (c = '/')) then head
  else (head.reverse.dropWhile (fun c => decide (c = '/'))).reverse

/-- posixpath.join of two components: the second wins if absolute, otherwise a
slash separator is added unless the first is empty or already ends in one. -/
def pyJoin (a b : Str) : Str :=
  if b.head? = some '/' then b
  else if a = [] then b
  else if a.getLast? = some '/' then a ++ b
  else a ++ '/' :: b

/-- Python sorted() on strings: a stable sort under lexicographic comparison. -/
def sortStr (l : List Str) : List Str := List.insertionSort (fun a b => strLe a b = true) l

/-- A staged local file: its byte size (os.stat st_size) and its content.
csv.reader with delimiter ' ' and quotechar a double quote is an external
library, so content is modelled post-tokenization, as the list of field lists
the reader yields, one per line. -/
structure FileData where
  size : Nat
  lines : List (List Str)
deriving DecidableEq

/-- The Python exceptions the embedded fragments can raise. -/
inductive PyErr
  | indexError
  | keyError
  | fileNotFound
  | clientError (code : Str)
  | transportError
deriving DecidableEq

/-- A row of the consumed_logs table: time.ctime(), base name, byte size. -/
structure ConsumedRow where
  date : Str
  filename : Str
  size : Nat
deriving DecidableEq

/-- A row of the usage table: the eleven positional fields of a log line. -/
structure UsageRow where
  date : Str
  remote_ip : Str
  requester : Str
  operation : Str
  filename : Str
  http_status : Str
  error_code : Str
  size : Str
  total_time : Str
  referrer : Str
  user_agent : Str
deriving DecidableEq

/-- The durable (committed) sqlite state: both tables, append-only. -/
structure DB where
  consumed : List ConsumedRow
  usage : List UsageRow
deriving DecidableEq

/-- SELECT filename FROM consumed_logs (lines 160-164). -/
def consumedNames (db : DB) : List Str := db.consumed.map (fun r => r.filename)

/-- The local staging directory: base name to file data. -/
abbrev FS := List (Str × FileData)

def fsFind (n : Str) : FS → Option FileData
  | [] => none
  | (m, d) :: rest => if m = n then some d else fsFind n rest

def fsErase (n : Str) : FS → FS
  | [] => []
  | (m, d) :: rest => if m = n then fsErase n rest else (m, d) :: fsErase n rest

/-- Writing a downloaded file (overwrite if present). -/
def fsInsert (n : Str) (d : FileData) (fs : FS) : FS := (n, d) :: fsErase n fs

/-- What one boto3 download_file attempt does for a given key. -/
inductive DLResult
  | success (d : FileData)
  | clientError (code : Str)
  | otherError
deriving DecidableEq

/-- The observable events used to state commit/delete ordering. -/
inductive Ev
  | commit
  | delete (key : Str)
deriving DecidableEq

/-- The string "404". -/
def s404 : Str := ("404").data

/-- s3_download (lines 287-296): download key to cache_dir/basename(key).  A
botocore ClientError whose code is "404" is printed and swallowed; any other
ClientError is re-raised; a non-client transport failure propagates. -/
def s3_download (r : DLResult) (fs : FS) (key : Str) : Except PyErr FS :=
  match r with
  | DLResult.success d => Except.ok (fsInsert (pyBasename key) d fs)
  | DLResult.clientError c =>
    if c = s404 then Except.ok fs else Except.error (PyErr.clientError c)
  | DLResult.otherError => Except.error PyErr.transportError

/-- pool.map(s3_download, batch) then pool.join() (lines 244-247).  Each worker
writes a distinct path keyed by base name and the join re-raises the first
worker exception; the pool is modelled as a sequential fold. -/
def downloadPhase (dl : Str → DLResult) (fs : FS) : List Str → FS × Option PyErr
  | [] => (fs, none)
  | k :: ks =>
    match s3_download (dl k) fs k with
    | Except.error e => (fs, some e)
    | Except.ok fs1 => downloadPhase dl fs1 ks

/-- One iteration of the csv row loop of insert_log_db (lines 323-354):
positional extraction of eleven fields.  fields[17] is the largest index read,
so Python raises IndexError on any row of fewer than 18 fields; fields[2][1:]
never raises. -/
def parseLine (fields : List Str) : Except PyErr UsageRow :=
  if 18 ≤ fields.length then
    Except.ok
      { date := (fields.getD 2 []).drop 1
        remote_ip := fields.getD 4 []
        requester := fields.getD 5 []
        operation := fields.getD 7 []
        filename := fields.getD 8 []
        http_status := fields.getD 10 []
        error_code := fields.getD 11 []
        size := fields.getD 13 []
        total_time := fields.getD 14 []
        referrer := fields.getD 16 []
        user_agent := fields.getD 17 [] }
  else Except.error PyErr.indexError

def parseLines : List (List Str) → Except PyErr (List UsageRow)
  | [] => Except.ok []
  | l :: ls =>
    match parseLine l with
    | Except.error e => Except.error e
    | Except.ok r =>
      match parseLines ls with
      | Except.error e => Except.error e
      | Except.ok rs => Except.ok (r :: rs)

/-- insert_log_db (lines 306-354): os.stat the staged file (FileNotFoundError
when it is missing), build the consumed_logs row from time.ctime(), basename
and st_size, and parse every line into a usage row.  The cur.execute calls
become durable only at the batch commit, so the rows are returned and appended
to the committed state by cacheBatch at commit time; rows executed before a
raise are discarded with the rolled-back transaction. -/
def insert_log_db (now : Str) (fs : FS) (key : Str) : Except PyErr (ConsumedRow × List UsageRow) :=
  match fsFind (pyBasename key) fs with
  | none => Except.error PyErr.fileNotFound
  | some fd =>
    match parseLines fd.lines with
    | Except.error e => Except.error e
    | Except.ok rows => Except.ok (⟨now, pyBasename key, fd.size⟩, rows)

/-- The per-batch insert loop of cache (lines 256-257). -/
def insertPhase (now : Str) (fs : FS) : List Str → Except PyErr (List ConsumedRow × List UsageRow)
  | [] => Except.ok ([], [])
  | k :: ks =>
    match insert_log_db now fs k with
    | Except.error e => Except.error e
    | Except.ok cu =>
      match insertPhase now fs ks with
      | Except.error e => Except.error e
      | Except.ok rest => Except.ok (cu.1 :: rest.1, cu.2 ++ rest.2)

/-- delete_local_file (lines 299-303): os.remove of cache_dir/basename(key);
os.remove raises FileNotFoundError when the file does not exist. -/
def delete_local_file (fs : FS) (key : Str) : Except PyErr FS :=
  match fsFind (pyBasename key) fs with
  | none => Except.error PyErr.fileNotFound
  | some _ => Except.ok (fsErase (pyBasename key) fs)

/-- pool.map(delete_local_file, batch) then pool.join() (lines 270-273),
modelled sequentially like downloadPhase; returns the delete events emitted. -/
def deletePhase (fs : FS) : List Str → List Ev × FS × Option PyErr
  | [] => ([], fs, none)
  | k :: ks =>
    match delete_local_file fs k with
    | Except.error e => ([], fs, some e)
    | Except.ok fs1 =>
      let rest := deletePhase fs1 ks
      (Ev.delete k :: rest.1, rest.2.1, rest.2.2)

/-- The outcome of a batch (or of a whole run): the commit/delete event trace,
the durable database state, the staging directory, and the first uncaught
exception if any. -/
structure BatchResult where
  trace : List Ev
  db : DB
  fs : FS
  err : Option PyErr
deriving DecidableEq

/-- One iteration of the while loop of cache (lines 236-283): download the
batch, run insert_log_db on every key of the batch, conn.commit() (line 259),
then delete the staged files.  An exception before the commit leaves the
durable state unchanged (the open transaction is rolled back when the crashed
process's connection closes); an exception during the delete phase happens
after the commit, which therefore survives it. -/
def cacheBatch (dl : Str → DLResult) (now : Str) (db : DB) (fs : FS) (batch : List Str) :
    BatchResult :=
  match downloadPhase dl fs batch with
  | (fs1, some e) => ⟨[], db, fs1, some e⟩
  | (fs1, none) =>
    match insertPhase now fs1 batch with
    | Except.error e => ⟨[], db, fs1, some e⟩
    | Except.ok cu =>
      let db1 : DB := ⟨db.consumed ++ cu.1, db.usage ++ cu.2⟩
      let rest := deletePhase fs1 batch
      ⟨Ev.commit :: rest.1, db1, rest.2.1, rest.2.2⟩

/-- cache (lines 219-284): while logs: batch = logs[:1000]; del logs[:1000];
process the batch.  The loop stops at the first uncaught exception. -/
def cache (dl : Str → DLResult) (now : Str) (db : DB) (fs : FS) (logs : List Str) : BatchResult :=
  match logs with
  | [] => ⟨[], db, fs, none⟩
  | k :: ks =>
    let r := cacheBatch dl now db fs ((k :: ks).take 1000)
    match r.err with
    | some _ => r
    | none =>
      let r2 := cache dl now r.db r.fs ((k :: ks).drop 1000)
      ⟨r.trace ++ r2.trace, r2.db, r2.fs, r2.err⟩
termination_by logs.length
decreasing_by simp [List.length_drop]; omega

/-- The batch decomposition the cache loop performs: consecutive slices of at
most 1000 keys, in order. -/
def batchSplit : List Str → List (List Str)
  | [] => []
  | k :: ks => (k :: ks).take 1000 :: batchSplit ((k :: ks).drop 1000)
termination_by l => l.length
decreasing_by simp [List.length_drop]; omega

/-- Folding cacheBatch over an explicit list of batches; used to state that
cache processes exactly batchSplit of its input, in order. -/
def runBatches (dl : Str → DLResult) (now : Str) : DB → FS → List (List Str) → BatchResult
  | db, fs, [] => ⟨[], db, fs, none⟩
  | db, fs, b :: bs =>
    let r := cacheBatch dl now db fs b
    match r.err with
    | some _ => r
    | none =>
      let r2 := runBatches dl now r.db r.fs bs
      ⟨r.trace ++ r2.trace, r2.db, r2.fs, r2.err⟩

/-- get_uncached_logs (lines 146-176): the diff of the S3 listing against the
consumed_logs filenames.  dirname(s3_logs[0]) raises IndexError when the
listing is empty.  Python's list(set(bases) - set(consumed)) enumerates a set
in unspecified order; since the final result is sorted on the full keys, which
are pairwise distinct, the set difference is modelled as dedup-then-filter. -/
def get_uncached_logs (s3_logs consumed : List Str) : Except PyErr (List Str) :=
  match s3_logs with
  | [] => Except.error PyErr.indexError
  | k0 :: _ =>
    let d := pyDirname k0
    let bases := s3_logs.map pyBasename
    let new_logs := bases.dedup.filter (fun b => decide (¬ b ∈ consumed))
    Except.ok (sortStr (new_logs.map (fun b => pyJoin d b)))

/-- One page of a list_objects_v2 response: the object keys if 'Contents' is
present (S3 omits the entry when no key matches), and whether
'NextContinuationToken' is present. -/
structure Page where
  contents : Option (List Str)
  hasNext : Bool
deriving DecidableEq

/-- The page-cap test of get_s3_keys (line 210): opts.pages and i >= opts.pages,
where a None or zero opts.pages is falsy. -/
def capReached : Option Nat → Nat → Bool
  | none, _ => false
  | some c, i => decide (¬ c = 0) && decide (c ≤ i)

/-- The pagination loop of get_s3_keys (lines 196-211): accumulate
resp['Contents'] (KeyError when absent), stop when NextContinuationToken is
absent or the page cap is reached. -/
def listLoop (cap : Option Nat) : Nat → List Str → List Page → Except PyErr (List Str)
  | _, acc, [] => Except.ok acc
  | i, acc, p :: ps =>
    match p.contents with
    | none => Except.error PyErr.keyError
    | some ks =>
      if p.hasNext = false then Except.ok (acc ++ ks)
      else if capReached cap (i + 1) then Except.ok (acc ++ ks)
      else listLoop cap (i + 1) (acc ++ ks) ps

/-- get_s3_keys (lines 179-216), over the chain of pages the bucket serves for
the requested prefix. -/
def get_s3_keys (cap : Option Nat) (pages : List Page) : Except PyErr (List Str) :=
  listLoop cap 0 [] pages

/-- The core of one main() run (lines 93-99): diff the already-fetched listing
against the consumed set, then run the batch loop. -/
def runPipeline (dl : Str → DLResult) (now : Str) (listing : List Str) (db : DB) (fs : FS) :
    BatchResult :=
  match get_uncached_logs listing (consumedNames db) with
  | Except.error e => ⟨[], db, fs, some e⟩
  | Except.ok logs => cache dl now db fs logs

/-! ### String order: transitivity and totality of Python string comparison -/

theorem charLt_iff (u v : Char) : charLt u v = true ↔ u.toNat < v.toNat := by
  simp [charLt]

theorem charLt_false_iff (u v : Char) : charLt u v = false ↔ ¬ u.toNat < v.toNat := by
  simp [charLt]

theorem strLe_trans : ∀ a b c : Str, strLe a b = true → strLe b c = true → strLe a c = true := by
  intro a
  induction a with
  | nil => intro b c _ _; rfl
  | cons x xs ih =>
    intro b c hab hbc
    cases b with
    | nil => simp [strLe] at hab
    | cons y ys =>
      cases c with
      | nil => simp [strLe] at hbc
      | cons z zs =>
        cases h1 : charLt x y with
        | true =>
          have hxy := (charLt_iff x y).mp h1
          cases h3 : charLt y z with
          | true =>
            have hyz := (charLt_iff y z).mp h3
            have hxz : charLt x z = true := (charLt_iff x z).mpr (by omega)
            simp [strLe, hxz]
          | false =>
            have hyz := (charLt_false_iff y z).mp h3
            cases h4 : charLt z y with
            | true => simp [strLe, h3, h4] at hbc
            | false =>
              have hzy := (charLt_false_iff z y).mp h4
              have hxz : charLt x z = true := (charLt_iff x z).mpr (by omega)
              simp [strLe, hxz]
        | false =>
          cases h2 : charLt y x with
          | true => simp [strLe, h1, h2] at hab
          | false =>
            have hxy := (charLt_false_iff x y).mp h1
            have hyx := (charLt_false_iff y x).mp h2
            simp only [strLe, h1, h2] at hab
            simp only [if_false, Bool.false_eq_true, if_neg] at hab
            cases h3 : charLt y z with
            | true =>
              have hyz := (charLt_iff y z).mp h3
              have hxz : charLt x z = true := (charLt_iff x z).mpr (by omega)
              simp [strLe, hxz]
            | false =>
              cases h4 : charLt z y with
              | true => simp [strLe, h3, h4] at hbc
              | false =>
                have hyz := (charLt_false_iff y z).mp h3
                have hzy := (charLt_false_iff z y).mp h4
                simp only [strLe, h3, h4] at hbc
                simp only [if_false, Bool.false_eq_true, if_neg] at hbc
                have hxz : charLt x z = false := (charLt_false_iff x z).mpr (by omega)
                have hzx : charLt z x = false := (charLt_false_iff z x).mpr (by omega)
                simp only [strLe, hxz, hzx]
                simp only [if_false, Bool.false_eq_true, if_neg]
                exact ih ys zs hab hbc

theorem strLe_total : ∀ a b : Str, strLe a b = true ∨ strLe b a = true := by
  intro a
  induction a with
  | nil => intro b; left; rfl
  | cons x xs ih =>
    intro b
    cases b with
    | nil => right; rfl
    | cons y ys =>
      cases h1 : charLt x y with
      | true => left; simp [strLe, h1]
      | false =>
        cases h2 : charLt y x with
        | true => right; simp [strLe, h2]
        | false =>
          cases ih ys with
          | inl h => left; simp [strLe, h1, h2, h]
          | inr h => right; simp [strLe, h1, h2, h]

instance : IsTotal Str (fun a b => strLe a b = true) := ⟨strLe_total⟩

instance : IsTrans Str (fun a b => strLe a b = true) := ⟨strLe_trans⟩

theorem perm_sortStr (l : List Str) : List.Perm (sortStr l) l :=
  List.perm_insertionSort (fun a b => strLe a b = true) l

theorem pairwise_sortStr (l : List Str) :
    (sortStr l).Pairwise (fun a b => strLe a b = true) :=
  List.sorted_insertionSort (fun a b => strLe a b = true) l

/-! ### posixpath lemmas -/

theorem takeWhile_append_all (p : Char → Bool) :
    ∀ xs ys : Str, (∀ c ∈ xs, p c = true) → (xs ++ ys).takeWhile p = xs ++ ys.takeWhile p := by
  intro xs
  induction xs with
  | nil => intro ys _; simp
  | cons c cs ih =>
    intro ys h
    have hc : p c = true := h c (List.mem_cons_self c cs)
    rw [List.cons_append, List.takeWhile_cons_of_pos hc,
      ih ys (fun d hd => h d (List.mem_cons_of_mem c hd)), List.cons_append]

theorem takeWhile_all_eq (p : Char → Bool) (l : Str) (h : ∀ c ∈ l, p c = true) :
    l.takeWhile p = l := by
  have := takeWhile_append_all p l [] h
  simpa using this

/-- No slash occurs in a base name. -/
theorem slash_not_mem_pyBasename (p : Str) : ¬ '/' ∈ pyBasename p := by
  intro h
  rw [pyBasename, List.mem_reverse] at h
  have := List.mem_takeWhile_imp h
  simp at this

theorem pyBasename_of_no_slash (b : Str) (h : ¬ '/' ∈ b) : pyBasename b = b := by
  rw [pyBasename, takeWhile_all_eq, List.reverse_reverse]
  intro c hc
  rw [List.mem_reverse] at hc
  simp only [decide_eq_true_eq]
  intro hcs
  exact h (hcs ▸ hc)

/-- Joining a directory with a slash-free name has that name as its basename. -/
theorem pyBasename_join (a b : Str) (hb : ¬ '/' ∈ b) : pyBasename (pyJoin a b) = b := by
  have hpb : ∀ c ∈ b.reverse, (fun c => decide (¬ c = '/')) c = true := by
    intro c hc
    rw [List.mem_reverse] at hc
    simp only [decide_eq_true_eq]
    intro hcs
    exact hb (hcs ▸ hc)
  rw [pyJoin]
  split
  · rename_i hhead
    exfalso
    cases b with
    | nil => simp at hhead
    | cons c cs =>
      simp only [List.head?_cons, Option.some.injEq] at hhead
      exact hb (hhead ▸ List.mem_cons_self c cs)
  · split
    · exact pyBasename_of_no_slash b hb
    · split
      · rename_i hlast
        rw [pyBasename, List.reverse_append]
        have hrev : a.reverse.head? = some '/' := by
          rw [List.head?_reverse]; exact hlast
        cases hra : a.reverse with
        | nil => rw [hra] at hrev; simp at hrev
        | cons c t =>
          rw [hra] at hrev
          simp only [List.head?_cons, Option.some.injEq] at hrev
          rw [takeWhile_append_all _ _ _ hpb, List.takeWhile_cons_of_neg (by simp [hrev]),
            List.append_nil, List.reverse_reverse]
      · rw [pyBasename, List.reverse_append, List.reverse_cons,
          List.append_assoc, List.singleton_append,
          takeWhile_append_all _ _ _ hpb, List.takeWhile_cons_of_neg (by simp),
          List.append_nil, List.reverse_reverse]

/-! ### Diff-engine lemmas -/

theorem countP_congr_mem {l : List Str} {p q : Str → Bool} (h : ∀ x ∈ l, p x = q x) :
    l.countP p = l.countP q := by
  induction l with
  | nil => rfl
  | cons x xs ih =>
    rw [List.countP_cons, List.countP_cons, h x (List.mem_cons_self x xs),
      ih (fun y hy => h y (List.mem_cons_of_mem x hy))]

theorem countP_eq_one_of_nodup {l : List Str} (hn : l.Nodup) {b : Str} (hb : b ∈ l) :
    l.countP (fun y => decide (y = b)) = 1 := by
  induction l with
  | nil => cases hb
  | cons x xs ih =>
    rw [List.countP_cons]
    rcases List.mem_cons.mp hb with rfl | hbx
    · have hnx : ¬ b ∈ xs := (List.nodup_cons.mp hn).1
      have h0 : xs.countP (fun y => decide (y = b)) = 0 :=
        List.countP_eq_zero.mpr (fun a ha => by
          simp only [decide_eq_true_eq]
          intro hax
          exact hnx (hax ▸ ha))
      simp [h0]
    · have hxb : ¬ x = b := by
        intro hxb
        exact (List.nodup_cons.mp hn).1 (hxb ▸ hbx)
      rw [ih (List.nodup_cons.mp hn).2 hbx]
      simp [hxb]

theorem no_slash_of_mem_bases {listing : List Str} {b : Str}
    (hb : b ∈ listing.map pyBasename) : ¬ '/' ∈ b := by
  rcases List.mem_map.mp hb with ⟨y, _, rfl⟩
  exact slash_not_mem_pyBasename y

/-- The result list of a successful diff, definitionally. -/
theorem diff_result (k0 : Str) (ks consumed r : List Str)
    (hg : get_uncached_logs (k0 :: ks) consumed = Except.ok r) :
    r = sortStr ((((k0 :: ks).map pyBasename).dedup.filter
      (fun b => decide (¬ b ∈ consumed))).map (fun b => pyJoin (pyDirname k0) b)) := by
  simp only [get_uncached_logs] at hg
  injection hg with hg
  exact hg.symm

/-- Every element of the diff result is the join of the first key's directory
with a listed, unconsumed base name. -/
theorem diff_sound (k0 : Str) (ks consumed r : List Str)
    (hg : get_uncached_logs (k0 :: ks) consumed = Except.ok r)
    (x : Str) (hx : x ∈ r) :
    pyBasename x ∈ (k0 :: ks).map pyBasename ∧ ¬ pyBasename x ∈ consumed ∧
      x = pyJoin (pyDirname k0) (pyBasename x) := by
  rw [diff_result k0 ks consumed r hg] at hx
  rw [(perm_sortStr _).mem_iff] at hx
  rcases List.mem_map.mp hx with ⟨b, hbf, rfl⟩
  rcases List.mem_filter.mp hbf with ⟨hbd, hbc⟩
  have hbm : b ∈ (k0 :: ks).map pyBasename := List.mem_dedup.mp hbd
  have hbs : ¬ '/' ∈ b := no_slash_of_mem_bases hbm
  have hbase : pyBasename (pyJoin (pyDirname k0) b) = b := pyBasename_join _ b hbs
  rw [hbase]
  exact ⟨hbm, by simpa using hbc, rfl⟩

/-- Every listed base name absent from the consumed set is covered by the diff
result. -/
theorem diff_covers (listing consumed r : List Str)
    (hg : get_uncached_logs listing consumed = Except.ok r)
    (b : Str) (hb : b ∈ listing.map pyBasename) (hc : ¬ b ∈ consumed) :
    ∃ x ∈ r, pyBasename x = b := by
  cases listing with
  | nil => exact absurd hg (by simp [get_uncached_logs])
  | cons k0 ks =>
    rw [diff_result k0 ks consumed r hg]
    refine ⟨pyJoin (pyDirname k0) b, ?_, pyBasename_join _ b (no_slash_of_mem_bases hb)⟩
    rw [(perm_sortStr _).mem_iff]
    exact List.mem_map.mpr ⟨b, List.mem_filter.mpr ⟨List.mem_dedup.mpr hb, by simpa using hc⟩, rfl⟩

/-- When every listed base name is already consumed, the diff is empty. -/
theorem diff_empty (k0 : Str) (ks consumed : List Str)
    (h : ∀ b ∈ (k0 :: ks).map pyBasename, b ∈ consumed) :
    get_uncached_logs (k0 :: ks) consumed = Except.ok [] := by
  simp only [get_uncached_logs]
  have hf : (((k0 :: ks).map pyBasename).dedup.filter (fun b => decide (¬ b ∈ consumed))) = [] :=
    List.filter_eq_nil_iff.mpr (fun b hb => by
      simp only [decide_eq_true_eq, Decidable.not_not]
      exact h b (List.mem_dedup.mp hb))
  rw [hf]
  rfl

/-- A listed, unconsumed base name has exactly one representative in the diff
result. -/
theorem diff_countP (k0 : Str) (ks consumed r : List Str)
    (hg : get_uncached_logs (k0 :: ks) consumed = Except.ok r)
    (b : Str) (hb : b ∈ (k0 :: ks).map pyBasename) (hc : ¬ b ∈ consumed) :
    r.countP (fun x => decide (pyBasename x = b)) = 1 := by
  rw [diff_result k0 ks consumed r hg]
  rw [(perm_sortStr _).countP_eq]
  rw [List.countP_map]
  have hnl : (((k0 :: ks).map pyBasename).dedup.filter
      (fun b => decide (¬ b ∈ consumed))).Nodup :=
    (List.nodup_dedup _).filter _
  have hbm : b ∈ ((k0 :: ks).map pyBasename).dedup.filter (fun b => decide (¬ b ∈ consumed)) :=
    List.mem_filter.mpr ⟨List.mem_dedup.mpr hb, by simpa using hc⟩
  have hcong : ∀ y ∈ ((k0 :: ks).map pyBasename).dedup.filter (fun b => decide (¬ b ∈ consumed)),
      ((fun x => decide (pyBasename x = b)) ∘ (fun y => pyJoin (pyDirname k0) y)) y =
        (fun y => decide (y = b)) y := by
    intro y hy
    have hym : y ∈ (k0 :: ks).map pyBasename :=
      List.mem_dedup.mp (List.mem_filter.mp hy).1
    simp only [Function.comp_apply]
    rw [pyBasename_join _ y (no_slash_of_mem_bases hym)]
  rw [countP_congr_mem hcong]
  exact countP_eq_one_of_nodup hnl hbm

/-! ### Staging-directory lemmas -/

theorem fsFind_erase_ne (m n : Str) (h : ¬ m = n) :
    ∀ fs : FS, fsFind m (fsErase n fs) = fsFind m fs := by
  intro fs
  induction fs with
  | nil => rfl
  | cons e rest ih =>
    obtain ⟨k, d⟩ := e
    by_cases hk : k = n
    · have hnm : ¬ n = m := fun hnm => h hnm.symm
      simp [fsErase, fsFind, hk, hnm, ih]
    · by_cases hkm : k = m
      · simp [fsErase, fsFind, hk, hkm, h]
      · simp [fsErase, fsFind, hk, hkm, ih]

theorem fsFind_insert_ne (m n : Str) (d : FileData) (fs : FS) (h : ¬ m = n) :
    fsFind m (fsInsert n d fs) = fsFind m fs := by
  have hnm : ¬ n = m := fun hnm => h hnm.symm
  simp [fsInsert, fsFind, hnm, fsFind_erase_ne m n h fs]

/-! ### Insert-phase lemmas -/

theorem insert_log_db_filename (now : Str) (fs : FS) (k : Str)
    (cu : ConsumedRow × List UsageRow) (h : insert_log_db now fs k = Except.ok cu) :
    cu.1.filename = pyBasename k := by
  unfold insert_log_db at h
  split at h
  · cases h
  · split at h
    · cases h
    · injection h with h
      rw [← h]

theorem insert_log_db_find (now : Str) (fs : FS) (k : Str)
    (cu : ConsumedRow × List UsageRow) (h : insert_log_db now fs k = Except.ok cu) :
    ∃ fd, fsFind (pyBasename k) fs = some fd := by
  unfold insert_log_db at h
  split at h
  · cases h
  · rename_i fd hf
    exact ⟨fd, hf⟩

theorem insertPhase_error_of_mem (now : Str) (fs : FS) :
    ∀ (ks : List Str) (k : Str), k ∈ ks → (∃ e, insert_log_db now fs k = Except.error e) →
      ∃ e2, insertPhase now fs ks = Except.error e2 := by
  intro ks
  induction ks with
  | nil => intro k hk; cases hk
  | cons a rest ih =>
    intro k hk he
    obtain ⟨e, he⟩ := he
    cases hia : insert_log_db now fs a with
    | error e1 => exact ⟨e1, by simp [insertPhase, hia]⟩
    | ok cu =>
      rcases List.mem_cons.mp hk with rfl | hkr
      · rw [hia] at he; cases he
      · obtain ⟨e2, h2⟩ := ih k hkr ⟨e, he⟩
        exact ⟨e2, by simp [insertPhase, hia, h2]⟩

theorem insertPhase_names (now : Str) (fs : FS) :
    ∀ (ks : List Str) (cs : List ConsumedRow) (us : List UsageRow),
      insertPhase now fs ks = Except.ok (cs, us) →
      cs.map (fun r => r.filename) = ks.map pyBasename := by
  intro ks
  induction ks with
  | nil =>
    intro cs us h
    simp only [insertPhase] at h
    injection h with h
    injection h with h1 h2
    rw [← h1]
    rfl
  | cons a rest ih =>
    intro cs us h
    simp only [insertPhase] at h
    split at h
    · cases h
    · rename_i cu hia
      split at h
      · cases h
      · rename_i rest2 hir
        injection h with h
        injection h with h1 h2
        rw [← h1]
        simp only [List.map_cons]
        rw [insert_log_db_filename now fs a cu hia, ih rest2.1 rest2.2 (by rw [hir])]

theorem insertPhase_find (now : Str) (fs : FS) :
    ∀ (ks : List Str) (cs : List ConsumedRow) (us : List UsageRow),
      insertPhase now fs ks = Except.ok (cs, us) →
      ∀ k ∈ ks, ∃ fd, fsFind (pyBasename k) fs = some fd := by
  intro ks
  induction ks with
  | nil => intro cs us _ k hk; cases hk
  | cons a rest ih =>
    intro cs us h k hk
    simp only [insertPhase] at h
    split at h
    · cases h
    · rename_i cu hia
      split at h
      · cases h
      · rename_i rest2 hir
        rcases List.mem_cons.mp hk with rfl | hkr
        · exact insert_log_db_find now fs k cu hia
        · exact ih rest2.1 rest2.2 (by rw [hir]) k hkr

/-! ### Download- and delete-phase lemmas -/

/-- If every batch key sharing base name b is skipped with a 404 and b was not
staged before, the download phase leaves b unstaged. -/
theorem downloadPhase_miss (dl : Str → DLResult) (b : Str) :
    ∀ (ks : List Str) (fs : FS), fsFind b fs = none →
      (∀ j ∈ ks, pyBasename j = b → dl j = DLResult.clientError s404) →
      (downloadPhase dl fs ks).2 = none →
      fsFind b (downloadPhase dl fs ks).1 = none := by
  intro ks
  induction ks with
  | nil => intro fs hfs _ _; exact hfs
  | cons k rest ih =>
    intro fs hfs h404 hok
    cases hdk : dl k with
    | success d =>
      have hbk : ¬ b = pyBasename k := by
        intro hbk
        rw [h404 k (List.mem_cons_self k rest) hbk.symm] at hdk
        cases hdk
      have hstep : downloadPhase dl fs (k :: rest) =
          downloadPhase dl (fsInsert (pyBasename k) d fs) rest := by
        simp [downloadPhase, s3_download, hdk]
      rw [hstep] at hok ⊢
      exact ih (fsInsert (pyBasename k) d fs)
        (by rw [fsFind_insert_ne b (pyBasename k) d fs hbk]; exact hfs)
        (fun j hj hjb => h404 j (List.mem_cons_of_mem k hj) hjb) hok
    | clientError c =>
      by_cases hc : c = s404
      · have hstep : downloadPhase dl fs (k :: rest) = downloadPhase dl fs rest := by
          simp [downloadPhase, s3_download, hdk, hc]
        rw [hstep] at hok ⊢
        exact ih fs hfs (fun j hj hjb => h404 j (List.mem_cons_of_mem k hj) hjb) hok
      · exfalso
        have : (downloadPhase dl fs (k :: rest)).2 = some (PyErr.clientError c) := by
          simp [downloadPhase, s3_download, hdk, hc]
        rw [this] at hok
        cases hok
    | otherError =>
      exfalso
      have : (downloadPhase dl fs (k :: rest)).2 = some PyErr.transportError := by
        simp [downloadPhase, s3_download, hdk]
      rw [this] at hok
      cases hok

/-- When every staged file is present and base names are distinct, the delete
phase deletes every batch key and raises nothing. -/
theorem deletePhase_complete :
    ∀ (ks : List Str) (fs : FS), (∀ k ∈ ks, ∃ fd, fsFind (pyBasename k) fs = some fd) →
      (ks.map pyBasename).Nodup →
      (deletePhase fs ks).1 = ks.map Ev.delete ∧ (deletePhase fs ks).2.2 = none := by
  intro ks
  induction ks with
  | nil => intro fs _ _; exact ⟨rfl, rfl⟩
  | cons k rest ih =>
    intro fs hfind hnd
    obtain ⟨fd, hfd⟩ := hfind k (List.mem_cons_self k rest)
    have hstep : deletePhase fs (k :: rest) =
        (Ev.delete k :: (deletePhase (fsErase (pyBasename k) fs) rest).1,
          (deletePhase (fsErase (pyBasename k) fs) rest).2.1,
          (deletePhase (fsErase (pyBasename k) fs) rest).2.2) := by
      simp [deletePhase, delete_local_file, hfd]
    have hnd' : (pyBasename k :: rest.map pyBasename).Nodup := by
      rw [List.map_cons] at hnd
      exact hnd
    have hnd2 := List.nodup_cons.mp hnd'
    have hrest := ih (fsErase (pyBasename k) fs)
      (fun j hj => by
        obtain ⟨fd2, hfd2⟩ := hfind j (List.mem_cons_of_mem k hj)
        have hne : ¬ pyBasename j = pyBasename k := by
          intro heq
          exact hnd2.1 (heq ▸ List.mem_map_of_mem pyBasename hj)
        exact ⟨fd2, by rw [fsFind_erase_ne _ _ hne]; exact hfd2⟩)
      hnd2.2
    rw [hstep]
    exact ⟨by rw [List.map_cons, hrest.1], hrest.2⟩

/-! ### Batch and loop lemmas -/

/-- Case analysis on one batch: either an exception strikes before the commit
and the durable state is untouched, or downloads and inserts succeeded, the
commit appends exactly the batch's rows, and only then does the delete phase
run. -/
theorem cacheBatch_spec (dl : Str → DLResult) (now : Str) (db : DB) (fs : FS)
    (batch : List Str) :
    (∃ e, cacheBatch dl now db fs batch = ⟨[], db, (downloadPhase dl fs batch).1, some e⟩) ∨
    ((downloadPhase dl fs batch).2 = none ∧
      ∃ cu, insertPhase now (downloadPhase dl fs batch).1 batch = Except.ok cu ∧
        cacheBatch dl now db fs batch =
          ⟨Ev.commit :: (deletePhase (downloadPhase dl fs batch).1 batch).1,
            ⟨db.consumed ++ cu.1, db.usage ++ cu.2⟩,
            (deletePhase (downloadPhase dl fs batch).1 batch).2.1,
            (deletePhase (downloadPhase dl fs batch).1 batch).2.2⟩) := by
  unfold cacheBatch
  split
  · rename_i fs1 e hdp
    left
    exact ⟨e, by rw [hdp]⟩
  · rename_i fs1 hdp
    split
    · rename_i e hip
      left
      exact ⟨e, by rw [hdp]⟩
    · rename_i cu hip
      right
      rw [hdp]
      exact ⟨rfl, cu, hip, rfl⟩

/-- cache on the empty list does nothing. -/
theorem cache_nil (dl : Str → DLResult) (now : Str) (db : DB) (fs : FS) :
    cache dl now db fs [] = ⟨[], db, fs, none⟩ := by
  rw [cache]

/-- A short nonempty input forms a single batch. -/
theorem cache_single (dl : Str → DLResult) (now : Str) (db : DB) (fs : FS) (l : List Str)
    (h1 : ¬ l = []) (h2 : l.length ≤ 1000) :
    cache dl now db fs l = cacheBatch dl now db fs l := by
  cases l with
  | nil => exact absurd rfl h1
  | cons k ks =>
    rw [cache, List.take_of_length_le h2, List.drop_eq_nil_of_le h2]
    rcases hcb : cacheBatch dl now db fs (k :: ks) with ⟨t, d, f, e⟩
    cases e with
    | some e1 => rfl
    | none => simp [cache_nil]

/-- When the first batch fails, the loop stops with that batch's outcome. -/
theorem cache_cons_err (dl : Str → DLResult) (now : Str) (db : DB) (fs : FS) (k : Str)
    (ks : List Str) (e : PyErr)
    (h : (cacheBatch dl now db fs ((k :: ks).take 1000)).err = some e) :
    cache dl now db fs (k :: ks) = cacheBatch dl now db fs ((k :: ks).take 1000) := by
  rw [cache]
  split
  · rfl
  · rename_i heq
    rw [heq] at h
    cases h

theorem cache_cons_ok_err (dl : Str → DLResult) (now : Str) (db : DB) (fs : FS) (k : Str)
    (ks : List Str)
    (h : (cacheBatch dl now db fs ((k :: ks).take 1000)).err = none) :
    (cache dl now db fs (k :: ks)).err =
      (cache dl now (cacheBatch dl now db fs ((k :: ks).take 1000)).db
        (cacheBatch dl now db fs ((k :: ks).take 1000)).fs ((k :: ks).drop 1000)).err := by
  rw [cache]
  split
  · rename_i e heq
    rw [heq] at h
    cases h
  · rfl

theorem cache_cons_ok_db (dl : Str → DLResult) (now : Str) (db : DB) (fs : FS) (k : Str)
    (ks : List Str)
    (h : (cacheBatch dl now db fs ((k :: ks).take 1000)).err = none) :
    (cache dl now db fs (k :: ks)).db =
      (cache dl now (cacheBatch dl now db fs ((k :: ks).take 1000)).db
        (cacheBatch dl now db fs ((k :: ks).take 1000)).fs ((k :: ks).drop 1000)).db := by
  rw [cache]
  split
  · rename_i e heq
    rw [heq] at h
    cases h
  · rfl

theorem cache_cons_ok_trace (dl : Str → DLResult) (now : Str) (db : DB) (fs : FS) (k : Str)
    (ks : List Str)
    (h : (cacheBatch dl now db fs ((k :: ks).take 1000)).err = none) :
    (cache dl now db fs (k :: ks)).trace =
      (cacheBatch dl now db fs ((k :: ks).take 1000)).trace ++
      (cache dl now (cacheBatch dl now db fs ((k :: ks).take 1000)).db
        (cacheBatch dl now db fs ((k :: ks).take 1000)).fs ((k :: ks).drop 1000)).trace := by
  rw [cache]
  split
  · rename_i e heq
    rw [heq] at h
    cases h
  · rfl

/-- From a successful batch, projections of cacheBatch_spec's second branch. -/
theorem cacheBatch_consumed (dl : Str → DLResult) (now : Str) (db : DB) (fs : FS)
    (batch : List Str) (h : (cacheBatch dl now db fs batch).err = none) :
    consumedNames (cacheBatch dl now db fs batch).db =
      consumedNames db ++ batch.map pyBasename := by
  rcases cacheBatch_spec dl now db fs batch with ⟨e, hcb⟩ | ⟨_, cu, hip, hcb⟩
  · rw [hcb] at h
    cases h
  · rw [hcb]
    show (db.consumed ++ cu.1).map (fun r => r.filename) = consumedNames db ++ batch.map pyBasename
    rw [List.map_append]
    rw [insertPhase_names now _ batch cu.1 cu.2 (by rw [hip])]
    rfl

/-- A successful run of the batch loop appends exactly the base names of its
input to the consumed table. -/
theorem cache_consumed (dl : Str → DLResult) (now : Str) :
    ∀ (n : Nat) (logs : List Str), logs.length ≤ n → ∀ (db : DB) (fs : FS),
      (cache dl now db fs logs).err = none →
      consumedNames (cache dl now db fs logs).db = consumedNames db ++ logs.map pyBasename := by
  intro n
  induction n with
  | zero =>
    intro logs hlen db fs _
    have hnil : logs = [] := List.eq_nil_of_length_eq_zero (Nat.le_zero.mp hlen)
    subst hnil
    rw [cache_nil]
    simp [consumedNames]
  | succ n ih =>
    intro logs hlen db fs h
    cases logs with
    | nil =>
      rw [cache_nil]
      simp [consumedNames]
    | cons k ks =>
      cases hre : (cacheBatch dl now db fs ((k :: ks).take 1000)).err with
      | some e =>
        rw [cache_cons_err dl now db fs k ks e hre] at h
        rw [h] at hre
        cases hre
      | none =>
        rw [cache_cons_ok_err dl now db fs k ks hre] at h
        rw [cache_cons_ok_db dl now db fs k ks hre]
        have hdrop : ((k :: ks).drop 1000).length ≤ n := by
          rw [List.length_drop]
          have := hlen
          simp only [List.length_cons] at this ⊢
          omega
        rw [ih ((k :: ks).drop 1000) hdrop _ _ h]
        rw [cacheBatch_consumed dl now db fs _ hre]
        rw [List.append_assoc, ← List.map_append, List.take_append_drop]

theorem cache_cons_ok (dl : Str → DLResult) (now : Str) (db : DB) (fs : FS) (k : Str)
    (ks : List Str)
    (h : (cacheBatch dl now db fs ((k :: ks).take 1000)).err = none) :
    cache dl now db fs (k :: ks) =
      ⟨(cacheBatch dl now db fs ((k :: ks).take 1000)).trace ++
          (cache dl now (cacheBatch dl now db fs ((k :: ks).take 1000)).db
            (cacheBatch dl now db fs ((k :: ks).take 1000)).fs ((k :: ks).drop 1000)).trace,
        (cache dl now (cacheBatch dl now db fs ((k :: ks).take 1000)).db
          (cacheBatch dl now db fs ((k :: ks).take 1000)).fs ((k :: ks).drop 1000)).db,
        (cache dl now (cacheBatch dl now db fs ((k :: ks).take 1000)).db
          (cacheBatch dl now db fs ((k :: ks).take 1000)).fs ((k :: ks).drop 1000)).fs,
        (cache dl now (cacheBatch dl now db fs ((k :: ks).take 1000)).db
          (cacheBatch dl now db fs ((k :: ks).take 1000)).fs ((k :: ks).drop 1000)).err⟩ := by
  rw [cache]
  split
  · rename_i e heq
    rw [heq] at h
    cases h
  · rfl

theorem runBatches_cons_err (dl : Str → DLResult) (now : Str) (db : DB) (fs : FS)
    (b : List Str) (bs : List (List Str)) (e : PyErr)
    (h : (cacheBatch dl now db fs b).err = some e) :
    runBatches dl now db fs (b :: bs) = cacheBatch dl now db fs b := by
  simp only [runBatches]
  split
  · rfl
  · rename_i heq
    rw [heq] at h
    cases h

theorem runBatches_cons_ok (dl : Str → DLResult) (now : Str) (db : DB) (fs : FS)
    (b : List Str) (bs : List (List Str))
    (h : (cacheBatch dl now db fs b).err = none) :
    runBatches dl now db fs (b :: bs) =
      ⟨(cacheBatch dl now db fs b).trace ++
          (runBatches dl now (cacheBatch dl now db fs b).db (cacheBatch dl now db fs b).fs bs).trace,
        (runBatches dl now (cacheBatch dl now db fs b).db (cacheBatch dl now db fs b).fs bs).db,
        (runBatches dl now (cacheBatch dl now db fs b).db (cacheBatch dl now db fs b).fs bs).fs,
        (runBatches dl now (cacheBatch dl now db fs b).db (cacheBatch dl now db fs b).fs bs).err⟩ := by
  simp only [runBatches]
  split
  · rename_i e heq
    rw [heq] at h
    cases h
  · rfl

theorem batchSplit_flatten : ∀ (n : Nat) (logs : List Str), logs.length ≤ n →
    (batchSplit logs).flatten = logs := by
  intro n
  induction n with
  | zero =>
    intro logs hlen
    have hnil : logs = [] := List.eq_nil_of_length_eq_zero (Nat.le_zero.mp hlen)
    subst hnil
    rw [batchSplit]
    rfl
  | succ n ih =>
    intro logs hlen
    cases logs with
    | nil =>
      rw [batchSplit]
      rfl
    | cons k ks =>
      rw [batchSplit, List.flatten_cons]
      rw [ih ((k :: ks).drop 1000) (by
        rw [List.length_drop]
        simp only [List.length_cons] at hlen ⊢
        omega)]
      exact List.take_append_drop 1000 (k :: ks)

theorem batchSplit_mem : ∀ (n : Nat) (logs : List Str), logs.length ≤ n →
    ∀ b ∈ batchSplit logs, ¬ b = [] ∧ b.length ≤ 1000 := by
  intro n
  induction n with
  | zero =>
    intro logs hlen b hb
    have hnil : logs = [] := List.eq_nil_of_length_eq_zero (Nat.le_zero.mp hlen)
    subst hnil
    rw [batchSplit] at hb
    cases hb
  | succ n ih =>
    intro logs hlen b hb
    cases logs with
    | nil =>
      rw [batchSplit] at hb
      cases hb
    | cons k ks =>
      rw [batchSplit] at hb
      rcases List.mem_cons.mp hb with rfl | hbr
      · constructor
        · rw [List.take_succ_cons]
          exact List.cons_ne_nil k (ks.take 999)
        · rw [List.length_take]
          exact Nat.min_le_left 1000 (k :: ks).length
      · exact ih ((k :: ks).drop 1000) (by
          rw [List.length_drop]
          simp only [List.length_cons] at hlen ⊢
          omega) b hbr

theorem cache_eq_runBatches (dl : Str → DLResult) (now : Str) :
    ∀ (n : Nat) (logs : List Str), logs.length ≤ n → ∀ (db : DB) (fs : FS),
      cache dl now db fs logs = runBatches dl now db fs (batchSplit logs) := by
  intro n
  induction n with
  | zero =>
    intro logs hlen db fs
    have hnil : logs = [] := List.eq_nil_of_length_eq_zero (Nat.le_zero.mp hlen)
    subst hnil
    rw [batchSplit, cache_nil]
    rfl
  | succ n ih =>
    intro logs hlen db fs
    cases logs with
    | nil =>
      rw [batchSplit, cache_nil]
      rfl
    | cons k ks =>
      have hdrop : ((k :: ks).drop 1000).length ≤ n := by
        rw [List.length_drop]
        simp only [List.length_cons] at hlen ⊢
        omega
      rw [batchSplit]
      cases hre : (cacheBatch dl now db fs ((k :: ks).take 1000)).err with
      | some e =>
        rw [cache_cons_err dl now db fs k ks e hre,
          runBatches_cons_err dl now db fs _ _ e hre]
      | none =>
        rw [cache_cons_ok dl now db fs k ks hre, runBatches_cons_ok dl now db fs _ _ hre,
          ih ((k :: ks).drop 1000) hdrop]

/-- A successful pipeline run: the diff succeeded and the consumed table grew
by exactly the diff's base names. -/
theorem runPipeline_consumed (dl : Str → DLResult) (now : Str) (listing : List Str)
    (db : DB) (fs : FS) (h : (runPipeline dl now listing db fs).err = none) :
    ∃ logs, get_uncached_logs listing (consumedNames db) = Except.ok logs ∧
      runPipeline dl now listing db fs = cache dl now db fs logs ∧
      consumedNames (runPipeline dl now listing db fs).db =
        consumedNames db ++ logs.map pyBasename := by
  cases hg : get_uncached_logs listing (consumedNames db) with
  | error e =>
    exfalso
    have hrp : runPipeline dl now listing db fs = ⟨[], db, fs, some e⟩ := by
      unfold runPipeline
      rw [hg]
    rw [hrp] at h
    cases h
  | ok logs =>
    have hrp : runPipeline dl now listing db fs = cache dl now db fs logs := by
      unfold runPipeline
      rw [hg]
    rw [hrp] at h ⊢
    exact ⟨logs, rfl, rfl, cache_consumed dl now logs.length logs (Nat.le_refl _) db fs h⟩

/-! ### Concrete inputs used by witnesses -/

/-- An empty database. -/
def dbEmpty : DB := ⟨[], []⟩

/-- A download oracle serving an empty (zero-line) file for every key. -/
def emptyFileDL : Str → DLResult := fun _ => DLResult.success ⟨0, []⟩

/-- A download oracle serving a file whose single line has too few fields. -/
def badFileDL : Str → DLResult := fun _ => DLResult.success ⟨0, [[]]⟩

/-- A download oracle that answers 404 for every key. -/
def notFoundDL : Str → DLResult := fun _ => DLResult.clientError s404

/-! ### Claims -/

/-- C4 counterexample: on an empty remote listing get_uncached_logs raises
IndexError (s3_logs[0] during directory-prefix inference) instead of returning
the empty result the claim asserts. -/
theorem c4_empty_listing_counterexample :
    get_uncached_logs [] [] = Except.error PyErr.indexError ∧
    ¬ get_uncached_logs [] [] = Except.ok [] :=
  ⟨rfl, fun h => Except.noConfusion h⟩

/-- C4 (amended): if the remote object-identifier list is empty, the Diff
Engine does not return an empty result; it raises IndexError while inferring
the directory from the first listed identifier, for every consumed set. -/
theorem c4_empty_listing_amended (consumed : List Str) :
    get_uncached_logs [] consumed = Except.error PyErr.indexError := rfl

/-- C6: the download step raises no exception on a 404 client error (the skip
leaves the staging directory unchanged); it re-raises every other client error
and every non-client transport error; a successful download stages the file.
It raises if and only if the outcome is an error other than a 404. -/
theorem c6_download_error_policy (fs : FS) (key : Str) :
    s3_download (DLResult.clientError s404) fs key = Except.ok fs ∧
    (∀ c, ¬ c = s404 →
      s3_download (DLResult.clientError c) fs key = Except.error (PyErr.clientError c)) ∧
    s3_download DLResult.otherError fs key = Except.error PyErr.transportError ∧
    (∀ d, s3_download (DLResult.success d) fs key =
      Except.ok (fsInsert (pyBasename key) d fs)) := by
  refine ⟨by simp [s3_download], ?_, rfl, fun d => rfl⟩
  intro c hc
  simp [s3_download, hc]

theorem c6_download_error_policy_witness :
    s3_download (DLResult.clientError (("500").data)) [] (("k").data) =
      Except.error (PyErr.clientError (("500").data)) ∧
    s3_download (DLResult.clientError s404) [] (("k").data) = Except.ok [] := by
  have h := c6_download_error_policy [] (("k").data)
  exact ⟨h.2.1 (("500").data) (by decide), h.1⟩

/-- C9 counterexample: a listing page with no matching object has no Contents
entry, and get_s3_keys raises KeyError instead of returning an empty list. -/
theorem c9_empty_page_counterexample :
    get_s3_keys none [⟨none, false⟩] = Except.error PyErr.keyError ∧
    ¬ get_s3_keys none [⟨none, false⟩] = Except.ok [] :=
  ⟨rfl, fun h => Except.noConfusion h⟩

theorem listLoop_ok (cap : Option Nat) :
    ∀ (pages : List Page) (i : Nat) (acc : List Str),
      (∀ p ∈ pages, ¬ p.contents = none) →
      ∃ ks, listLoop cap i acc pages = Except.ok ks := by
  intro pages
  induction pages with
  | nil => intro i acc _; exact ⟨acc, rfl⟩
  | cons p ps ih =>
    intro i acc h
    cases hc : p.contents with
    | none => exact absurd hc (h p (List.mem_cons_self p ps))
    | some ks0 =>
      by_cases hn : p.hasNext = false
      · exact ⟨acc ++ ks0, by simp [listLoop, hc, hn]⟩
      · by_cases hcap : capReached cap (i + 1) = true
        · exact ⟨acc ++ ks0, by simp [listLoop, hc, hn, hcap]⟩
        · obtain ⟨ks1, h1⟩ := ih (i + 1) (acc ++ ks0)
            (fun q hq => h q (List.mem_cons_of_mem p hq))
          exact ⟨ks1, by simp [listLoop, hc, hn, hcap, h1]⟩

/-- C9 (amended): for every page cap and page chain in which each served page
lists at least one object (its Contents entry is present), the listing returns
an accumulated key list without raising; but a page with no matching object
omits Contents and get_s3_keys raises KeyError rather than returning an empty
or partial list. -/
theorem c9_listing_amended (cap : Option Nat) (pages : List Page)
    (h : ∀ p ∈ pages, ¬ p.contents = none) :
    ∃ ks, get_s3_keys cap pages = Except.ok ks :=
  listLoop_ok cap pages 0 [] h

theorem c9_listing_amended_witness :
    (∀ p ∈ [Page.mk (some [("k1").data]) false], ¬ p.contents = none) ∧
    ∃ ks, get_s3_keys none [Page.mk (some [("k1").data]) false] = Except.ok ks :=
  ⟨by decide, c9_listing_amended none [Page.mk (some [("k1").data]) false] (by decide)⟩

/-- C10: the batch loop splits its input into consecutive batches of at most
1000 keys whose concatenation is the input, processes exactly those batches in
order (cache equals the fold of cacheBatch over batchSplit), and removes each
batch from the pending list when taking it, so the pending list shrinks. -/
theorem c10_batch_loop (logs : List Str) :
    (batchSplit logs).flatten = logs ∧
    (∀ b ∈ batchSplit logs, ¬ b = [] ∧ b.length ≤ 1000) ∧
    (∀ (dl : Str → DLResult) (now : Str) (db : DB) (fs : FS),
      cache dl now db fs logs = runBatches dl now db fs (batchSplit logs)) ∧
    (¬ logs = [] →
      batchSplit logs = logs.take 1000 :: batchSplit (logs.drop 1000) ∧
      (logs.drop 1000).length < logs.length) := by
  refine ⟨batchSplit_flatten logs.length logs (Nat.le_refl _),
    batchSplit_mem logs.length logs (Nat.le_refl _),
    fun dl now db fs => cache_eq_runBatches dl now logs.length logs (Nat.le_refl _) db fs,
    fun hne => ?_⟩
  cases logs with
  | nil => exact absurd rfl hne
  | cons k ks =>
    refine ⟨by rw [batchSplit], ?_⟩
    rw [List.length_drop]
    simp only [List.length_cons]
    omega

theorem c10_batch_loop_witness :
    (batchSplit [("a").data]).flatten = [("a").data] ∧
    batchSplit [("a").data] = [("a").data].take 1000 :: batchSplit ([("a").data].drop 1000) := by
  have h := c10_batch_loop [("a").data]
  exact ⟨h.1, (h.2.2.2 (by decide)).1⟩

/-- C3 counterexample: for listing ["a/x", "b/y"] with nothing consumed, the
diff returns ["a/x", "a/y"]; its element "a/y" is not one of the listed
identifiers, contradicting the claim that each returned element is a listed
identifier. -/
theorem c3_diff_counterexample :
    get_uncached_logs [("a/x").data, ("b/y").data] [] =
      Except.ok [("a/x").data, ("a/y").data] ∧
    ¬ ("a/y").data ∈ [("a/x").data, ("b/y").data] :=
  ⟨rfl, by decide⟩

/-- C3 (amended): for a nonempty listing, the Diff Engine returns, sorted
lexicographically on the full identifier, the identifiers obtained by joining
the FIRST listed identifier's directory with each distinct listed base name
absent from the consumed set: every returned element's base name is a listed
base name not in the consumed set, no such base name is omitted, and each
returned element is that join (so it need not itself be a listed identifier,
and listed identifiers sharing a base name yield a single element). -/
theorem c3_diff_amended (k0 : Str) (ks consumed : List Str) :
    ∃ r, get_uncached_logs (k0 :: ks) consumed = Except.ok r ∧
      r.Pairwise (fun a b => strLe a b = true) ∧
      (∀ x ∈ r, pyBasename x ∈ (k0 :: ks).map pyBasename ∧ ¬ pyBasename x ∈ consumed ∧
        x = pyJoin (pyDirname k0) (pyBasename x)) ∧
      (∀ b ∈ (k0 :: ks).map pyBasename, ¬ b ∈ consumed → pyJoin (pyDirname k0) b ∈ r) := by
  refine ⟨_, rfl, pairwise_sortStr _, ?_, ?_⟩
  · intro x hx
    exact diff_sound k0 ks consumed _ rfl x hx
  · intro b hb hc
    obtain ⟨x, hx, hxb⟩ := diff_covers (k0 :: ks) consumed _ rfl b hb hc
    have hsb := diff_sound k0 ks consumed _ rfl x hx
    rw [← hxb, ← hsb.2.2]
    exact hx

theorem c3_diff_amended_witness :
    ∃ r, get_uncached_logs (("a/x").data :: [("b/y").data]) [] = Except.ok r ∧
      pyJoin (pyDirname (("a/x").data)) (("y").data) ∈ r := by
  obtain ⟨r, hr, _, _, hcover⟩ := c3_diff_amended (("a/x").data) [("b/y").data] []
  exact ⟨r, hr, hcover (("y").data) (by decide) (by decide)⟩

/-- C5: two distinct listed identifiers with the same unconsumed base name are
one object for dedup purposes; the diff result contains exactly one entry with
that base name, and a successful run adds exactly one consumed_logs row
carrying it. -/
theorem c5_dedup_key (listing : List Str) (db : DB) (k1 k2 : Str)
    (dl : Str → DLResult) (now : Str) (fs : FS)
    (hk1 : k1 ∈ listing) (hk2 : k2 ∈ listing) (hne : ¬ k1 = k2)
    (hb : pyBasename k2 = pyBasename k1)
    (hc : ¬ pyBasename k1 ∈ consumedNames db) :
    ∃ r, get_uncached_logs listing (consumedNames db) = Except.ok r ∧
      r.countP (fun x => decide (pyBasename x = pyBasename k1)) = 1 ∧
      ((runPipeline dl now listing db fs).err = none →
        (consumedNames (runPipeline dl now listing db fs).db).countP
          (fun x => decide (x = pyBasename k1)) = 1) := by
  cases listing with
  | nil => cases hk1
  | cons l0 ls =>
    refine ⟨_, rfl, ?_, ?_⟩
    · exact diff_countP l0 ls _ _ rfl (pyBasename k1)
        (List.mem_map_of_mem pyBasename hk1) hc
    · intro hrun
      obtain ⟨logs, hg, _, hcn⟩ := runPipeline_consumed dl now (l0 :: ls) db fs hrun
      rw [hcn, List.countP_append]
      have h0 : (consumedNames db).countP (fun x => decide (x = pyBasename k1)) = 0 :=
        List.countP_eq_zero.mpr (fun a ha => by
          simp only [decide_eq_true_eq]
          intro hae
          exact hc (hae ▸ ha))
      rw [h0, List.countP_map]
      have hone := diff_countP l0 ls (consumedNames db) logs hg (pyBasename k1)
        (List.mem_map_of_mem pyBasename hk1) hc
      simpa [Function.comp] using hone

theorem c5_dedup_key_witness :
    ∃ r, get_uncached_logs [("p/a").data, ("q/a").data] (consumedNames dbEmpty) =
        Except.ok r ∧
      r.countP (fun x => decide (pyBasename x = pyBasename (("p/a").data))) = 1 := by
  obtain ⟨r, hr, hcount, _⟩ := c5_dedup_key [("p/a").data, ("q/a").data] dbEmpty
    (("p/a").data) (("q/a").data) emptyFileDL [] []
    (by decide) (by decide) (by decide) (by decide) (by decide)
  exact ⟨r, hr, hcount⟩

/-- C1: if insert_log_db fails on some object k of a batch (a parse or stat
error before conn.commit()), the batch produces no commit and no deletes, the
durable database is unchanged (no consumed_logs or usage row of any of the
batch's objects persists), a subsequent diff over an unchanged listing
re-discovers every batch object whose base name is listed and unconsumed, and
any subsequent successful run re-ingests them all (their base names enter the
consumed table). -/
theorem c1_batch_atomicity (dl : Str → DLResult) (now : Str) (db : DB) (fs : FS)
    (batch listing : List Str) (k : Str)
    (hdl : (downloadPhase dl fs batch).2 = none)
    (hk : k ∈ batch)
    (hfail : ∃ e, insert_log_db now (downloadPhase dl fs batch).1 k = Except.error e) :
    (cacheBatch dl now db fs batch).db = db ∧
    (cacheBatch dl now db fs batch).trace = [] ∧
    (∃ e, (cacheBatch dl now db fs batch).err = some e) ∧
    (¬ listing = [] →
      ∃ r, get_uncached_logs listing (consumedNames db) = Except.ok r ∧
        ∀ j ∈ batch, pyBasename j ∈ listing.map pyBasename →
          ¬ pyBasename j ∈ consumedNames db → ∃ x ∈ r, pyBasename x = pyBasename j) ∧
    (∀ (dl2 : Str → DLResult) (now2 : Str) (fs2 : FS),
      (runPipeline dl2 now2 listing db fs2).err = none →
      ∀ j ∈ batch, pyBasename j ∈ listing.map pyBasename →
        pyBasename j ∈ consumedNames (runPipeline dl2 now2 listing db fs2).db) := by
  obtain ⟨e2, hip⟩ := insertPhase_error_of_mem now _ batch k hk hfail
  rcases cacheBatch_spec dl now db fs batch with ⟨e, hcb⟩ | ⟨_, cu, hip2, _⟩
  · refine ⟨by rw [hcb], by rw [hcb], ⟨e, by rw [hcb]⟩, ?_, ?_⟩
    · intro hlne
      cases listing with
      | nil => exact absurd rfl hlne
      | cons l0 ls =>
        exact ⟨_, rfl, fun j hj hjb hjc =>
          diff_covers (l0 :: ls) (consumedNames db) _ rfl (pyBasename j) hjb hjc⟩
    · intro dl2 now2 fs2 hrun j hj hjb
      obtain ⟨logs, hg, _, hcn⟩ := runPipeline_consumed dl2 now2 listing db fs2 hrun
      rw [hcn]
      by_cases hjc : pyBasename j ∈ consumedNames db
      · exact List.mem_append_left _ hjc
      · obtain ⟨x, hx, hxb⟩ := diff_covers listing (consumedNames db) logs hg
          (pyBasename j) hjb hjc
        exact List.mem_append_right _ (hxb ▸ List.mem_map_of_mem pyBasename hx)
  · rw [hip] at hip2
    cases hip2

theorem c1_batch_atomicity_witness :
    (cacheBatch badFileDL [] dbEmpty [] [("logs/a").data]).db = dbEmpty ∧
    (cacheBatch badFileDL [] dbEmpty [] [("logs/a").data]).trace = [] := by
  have h := c1_batch_atomicity badFileDL [] dbEmpty [] [("logs/a").data] [("logs/a").data]
    (("logs/a").data) (by decide) (by decide) ⟨PyErr.indexError, rfl⟩
  exact ⟨h.1, h.2.1⟩

/-- C7: an object whose download was skipped with a 404 (and whose base name
was never staged) stays in the batch: the insert step still reaches it,
insert_log_db fails at the os.stat of the nonexistent staged file
(FileNotFoundError), so the whole batch insert phase raises and the batch
commits nothing. -/
theorem c7_skip_gap (dl : Str → DLResult) (now : Str) (db : DB) (fs : FS)
    (batch : List Str) (k : Str)
    (hk : k ∈ batch)
    (h404 : ∀ j ∈ batch, pyBasename j = pyBasename k → dl j = DLResult.clientError s404)
    (h0 : fsFind (pyBasename k) fs = none)
    (hdl : (downloadPhase dl fs batch).2 = none) :
    fsFind (pyBasename k) (downloadPhase dl fs batch).1 = none ∧
    insert_log_db now (downloadPhase dl fs batch).1 k = Except.error PyErr.fileNotFound ∧
    (∃ e, insertPhase now (downloadPhase dl fs batch).1 batch = Except.error e) ∧
    (∃ e, (cacheBatch dl now db fs batch).err = some e) ∧
    (cacheBatch dl now db fs batch).db = db := by
  have hmiss := downloadPhase_miss dl (pyBasename k) batch fs h0 h404 hdl
  have hins : insert_log_db now (downloadPhase dl fs batch).1 k =
      Except.error PyErr.fileNotFound := by
    unfold insert_log_db
    rw [hmiss]
  obtain ⟨e2, hip⟩ := insertPhase_error_of_mem now _ batch k hk ⟨_, hins⟩
  rcases cacheBatch_spec dl now db fs batch with ⟨e, hcb⟩ | ⟨_, cu, hip2, _⟩
  · exact ⟨hmiss, hins, ⟨e2, hip⟩, ⟨e, by rw [hcb]⟩, by rw [hcb]⟩
  · rw [hip] at hip2
    cases hip2

theorem c7_skip_gap_witness :
    insert_log_db [] (downloadPhase notFoundDL [] [("logs/a").data]).1 (("logs/a").data) =
      Except.error PyErr.fileNotFound ∧
    (cacheBatch notFoundDL [] dbEmpty [] [("logs/a").data]).db = dbEmpty := by
  have h := c7_skip_gap notFoundDL [] dbEmpty [] [("logs/a").data] (("logs/a").data)
    (by decide) (by decide) (by decide) (by decide)
  exact ⟨h.2.1, h.2.2.2.2⟩

/-- C8: within a batch, a staged file is deleted only after that batch's
commit: any delete event implies the trace starts with the commit event; a
trace without a commit has no delete; and once the commit happened (with the
batch's base names distinct, as diff output is), every batch object's file is
deleted. -/
theorem c8_reclaim_safety (dl : Str → DLResult) (now : Str) (db : DB) (fs : FS)
    (batch : List Str) :
    ((∃ k, Ev.delete k ∈ (cacheBatch dl now db fs batch).trace) →
      (cacheBatch dl now db fs batch).trace.head? = some Ev.commit) ∧
    (¬ Ev.commit ∈ (cacheBatch dl now db fs batch).trace →
      ∀ k, ¬ Ev.delete k ∈ (cacheBatch dl now db fs batch).trace) ∧
    (Ev.commit ∈ (cacheBatch dl now db fs batch).trace →
      (batch.map pyBasename).Nodup →
      ∀ k ∈ batch, Ev.delete k ∈ (cacheBatch dl now db fs batch).trace) := by
  rcases cacheBatch_spec dl now db fs batch with ⟨e, hcb⟩ | ⟨hdp, cu, hip, hcb⟩
  · rw [hcb]
    refine ⟨?_, ?_, ?_⟩
    · rintro ⟨k, hk⟩
      cases hk
    · intro _ k hdel
      cases hdel
    · intro hcm
      cases hcm
  · rw [hcb]
    have hfind := insertPhase_find now _ batch cu.1 cu.2 (by rw [hip])
    refine ⟨fun _ => rfl, ?_, ?_⟩
    · intro hnc
      exact absurd (List.mem_cons_self _ _) hnc
    · intro _ hnd k hkb
      have hdel := deletePhase_complete batch _ hfind hnd
      exact List.mem_cons_of_mem _ (hdel.1 ▸ List.mem_map_of_mem Ev.delete hkb)

theorem c8_reclaim_safety_witness :
    Ev.delete (("logs/a").data) ∈ (cacheBatch emptyFileDL [] dbEmpty [] [("logs/a").data]).trace ∧
    (cacheBatch emptyFileDL [] dbEmpty [] [("logs/a").data]).trace.head? = some Ev.commit := by
  have h := c8_reclaim_safety emptyFileDL [] dbEmpty [] [("logs/a").data]
  have hdel := h.2.2 (by decide) (by decide) (("logs/a").data) (by decide)
  exact ⟨hdel, h.1 ⟨_, hdel⟩⟩

/-- C2: after a successful run, re-running the pipeline against the unchanged
listing finds an empty diff and does no work: the second run commits nothing,
deletes nothing, raises nothing, and inserts zero additional consumed_logs or
usage rows (its durable state is exactly the first run's). -/
theorem c2_idempotence (dl dl2 : Str → DLResult) (now now2 : Str) (listing : List Str)
    (db : DB) (fs fs2 : FS)
    (h : (runPipeline dl now listing db fs).err = none) :
    get_uncached_logs listing (consumedNames (runPipeline dl now listing db fs).db) =
      Except.ok [] ∧
    runPipeline dl2 now2 listing (runPipeline dl now listing db fs).db fs2 =
      ⟨[], (runPipeline dl now listing db fs).db, fs2, none⟩ := by
  obtain ⟨logs, hg, hrp, hcn⟩ := runPipeline_consumed dl now listing db fs h
  cases listing with
  | nil => exact Except.noConfusion hg
  | cons l0 ls =>
    have hcover : ∀ b ∈ (l0 :: ls).map pyBasename,
        b ∈ consumedNames (runPipeline dl now (l0 :: ls) db fs).db := by
      intro b hb
      rw [hcn]
      by_cases hbc : b ∈ consumedNames db
      · exact List.mem_append_left _ hbc
      · obtain ⟨x, hx, hxb⟩ := diff_covers (l0 :: ls) (consumedNames db) logs hg b hb hbc
        exact List.mem_append_right _ (hxb ▸ List.mem_map_of_mem pyBasename hx)
    have hempty := diff_empty l0 ls _ hcover
    have hrun2 : ∀ db1 : DB, get_uncached_logs (l0 :: ls) (consumedNames db1) = Except.ok [] →
        runPipeline dl2 now2 (l0 :: ls) db1 fs2 = ⟨[], db1, fs2, none⟩ := by
      intro db1 he
      unfold runPipeline
      rw [he]
      exact cache_nil dl2 now2 db1 fs2
    exact ⟨hempty, hrun2 _ hempty⟩

theorem c2_idempotence_witness :
    (runPipeline emptyFileDL [] [("logs/a").data] dbEmpty []).err = none ∧
    get_uncached_logs [("logs/a").data]
      (consumedNames (runPipeline emptyFileDL [] [("logs/a").data] dbEmpty []).db) =
      Except.ok [] := by
  have hrp : runPipeline emptyFileDL [] [("logs/a").data] dbEmpty [] =
      cache emptyFileDL [] dbEmpty [] [("logs/a").data] := rfl
  have hsingle : cache emptyFileDL [] dbEmpty [] [("logs/a").data] =
      cacheBatch emptyFileDL [] dbEmpty [] [("logs/a").data] :=
    cache_single emptyFileDL [] dbEmpty [] [("logs/a").data] (by decide) (by decide)
  have herr : (runPipeline emptyFileDL [] [("logs/a").data] dbEmpty []).err = none := by
    rw [hrp, hsingle]
    decide
  exact ⟨herr,
    (c2_idempotence emptyFileDL emptyFileDL [] [] [("logs/a").data] dbEmpty [] [] herr).1⟩
